import Mathlib

/-!
Verification development for the `launch_service` query engine.

Shallow embedding of:
  - `QueryProcessor::recursively_iterate` / `separate_files_and_dirs`
    (src/query/query.rs): an iterative walk over a work queue, with a chain
    of terminate checkers and one condition checker;
  - `HiddenChecker::is_legit` (src/query/checkers/hidden_checker.rs);
  - `deserialize_from_bytes` / `read_len` (src/utils/serde/deserializer.rs);
  - the cache-augmented dual-branch query pipeline
    (`async_query`, `query_cached_services`, `query_updated_services`).

Effects are embedded explicitly: the filesystem is a function from a path to
an optional child list (`none` models a failing `read_dir`, on which the Rust
code panics through `.expect("Unwrap folder")`), and every function that can
panic returns an `Option` (`none` = panic).  Async concurrency (`join!`)
is embedded as pure composition of the two branch functions: the branches
share no mutable state, so their pure results compose.
-/

set_option autoImplicit false

namespace LaunchService

variable {α : Type}

/-- A filesystem: maps a path to `some` list of its children (in read order),
or `none` when `read_dir` fails on it (permission denied, vanished,
not-a-directory).  Paths are kept abstract (`α`); the walker only ever hands
them to the checkers and back to the filesystem, as in the Rust code. -/
def FS (α : Type) := α → Option (List α)

/-- The checker configuration a `QueryProcessor` holds: the list
`terminate_checkers` and the single `condition_checker`
(src/query/query.rs, fields of `QueryProcessor`). -/
structure WalkCfg (α : Type) where
  terminateCheckers : List (α → Bool)
  conditionChecker : α → Bool

/-- Embedding of `self.terminate_checkers.iter().any(|checker| checker.is_legit(&path))`. -/
def termAny (cfg : WalkCfg α) (p : α) : Bool :=
  cfg.terminateCheckers.any (fun ch => ch p)

/-- One iteration of the child loop in `separate_files_and_dirs`:
terminate checkers first (skip), else condition checker (push to
`processed`), else push to the `folders` queue. -/
def separateStep (cfg : WalkCfg α) (acc : List α × List α) (p : α) :
    List α × List α :=
  if termAny cfg p then acc
  else if cfg.conditionChecker p then (acc.1 ++ [p], acc.2)
  else (acc.1, acc.2 ++ [p])

/-- Embedding of `QueryProcessor::separate_files_and_dirs` (src/query/query.rs:119-134):
read the directory (`none` = the `read_dir` call failed, on which the code
panics), then partition the children with `separateStep`. -/
def separateFilesAndDirs (fs : FS α) (cfg : WalkCfg α) (entry : α) :
    Option (List α × List α) :=
  (fs entry).map (fun children => children.foldl (separateStep cfg) ([], []))

/-- Result of a walk: `ok emitted reads` lists the emitted paths and every
path whose directory was read, in order; `panicked reads` models the panic
from `.expect("Unwrap folder")` on a failing `read_dir`; `fuelOut` is a
model artifact for cyclic filesystems (real walks terminate). -/
inductive WalkOut (α : Type) where
  | ok (emitted : List α) (reads : List α)
  | panicked (reads : List α)
  | fuelOut
  deriving DecidableEq

/-- The `while let Some(entry) = remaining.pop_front()` loop of
`recursively_iterate`: pop the front of the FIFO queue, partition its
children, extend results and queue. -/
def walkLoop (fs : FS α) (cfg : WalkCfg α) :
    Nat → List α → List α → List α → WalkOut α
  | 0, _, _, _ => .fuelOut
  | _ + 1, res, [], reads => .ok res reads
  | fuel + 1, res, e :: rest, reads =>
    match separateFilesAndDirs fs cfg e with
    | none => .panicked (reads ++ [e])
    | some (processed, unprocessed) =>
      walkLoop fs cfg fuel (res ++ processed) (rest ++ unprocessed)
        (reads ++ [e])

/-- Embedding of `QueryProcessor::recursively_iterate` (src/query/query.rs:101-116):
test the root against the terminate checkers, then the condition checker,
then expand it and drain the work queue. -/
def recursivelyIterate (fs : FS α) (cfg : WalkCfg α) (fuel : Nat)
    (entry : α) : WalkOut α :=
  if termAny cfg entry then .ok [] []
  else if cfg.conditionChecker entry then .ok [entry] []
  else
    match separateFilesAndDirs fs cfg entry with
    | none => .panicked [entry]
    | some (res, remaining) => walkLoop fs cfg fuel res remaining [entry]

/-! ### Characterization of `separate_files_and_dirs` -/

theorem separateStep_foldl (cfg : WalkCfg α) (children : List α)
    (acc : List α × List α) :
    children.foldl (separateStep cfg) acc =
      (acc.1 ++ children.filter
          (fun p => !termAny cfg p && cfg.conditionChecker p),
       acc.2 ++ children.filter
          (fun p => !termAny cfg p && !cfg.conditionChecker p)) := by
  induction children generalizing acc with
  | nil => simp
  | cons c cs ih =>
    simp only [List.foldl_cons, List.filter_cons]
    rw [ih]
    unfold separateStep
    cases ht : termAny cfg c with
    | true => simp [ht]
    | false =>
      cases hc : cfg.conditionChecker c with
      | true => simp [ht, hc]
      | false => simp [ht, hc]

theorem separateFilesAndDirs_eq (fs : FS α) (cfg : WalkCfg α) (entry : α)
    (children : List α) (h : fs entry = some children) :
    separateFilesAndDirs fs cfg entry =
      some (children.filter (fun p => !termAny cfg p && cfg.conditionChecker p),
            children.filter
              (fun p => !termAny cfg p && !cfg.conditionChecker p)) := by
  simp [separateFilesAndDirs, h, separateStep_foldl]

/-! ### Pruned paths are never read and never enqueued -/

/-- In the queue-draining loop, if no queued entry and no recorded read
passes a terminate checker, then the same holds for every read the loop
ever performs: a path pruned by a terminate checker is never `read_dir`ed. -/
theorem walkLoop_reads_not_terminated (fs : FS α) (cfg : WalkCfg α)
    (fuel : Nat) (res queue reads : List α)
    (hq : ∀ q ∈ queue, termAny cfg q = false)
    (hr : ∀ r ∈ reads, termAny cfg r = false) :
    (∀ em reads2, walkLoop fs cfg fuel res queue reads = .ok em reads2 →
      ∀ r ∈ reads2, termAny cfg r = false) ∧
    (∀ reads2, walkLoop fs cfg fuel res queue reads = .panicked reads2 →
      ∀ r ∈ reads2, termAny cfg r = false) := by
  induction fuel generalizing res queue reads with
  | zero => simp [walkLoop]
  | succ fuel ih =>
    cases queue with
    | nil =>
      constructor
      · intro em reads2 h
        simp only [walkLoop, WalkOut.ok.injEq] at h
        exact h.2 ▸ hr
      · intro reads2 h
        simp [walkLoop] at h
    | cons e rest =>
      have he : termAny cfg e = false := hq e (by simp)
      have hr2 : ∀ r ∈ reads ++ [e], termAny cfg r = false := by
        intro r hmem
        rcases List.mem_append.mp hmem with h1 | h1
        · exact hr r h1
        · simp only [List.mem_singleton] at h1; exact h1 ▸ he
      cases hfs : fs e with
      | none =>
        have hsep : separateFilesAndDirs fs cfg e = none := by
          simp [separateFilesAndDirs, hfs]
        constructor
        · intro em reads2 h
          simp [walkLoop, hsep] at h
        · intro reads2 h
          simp only [walkLoop, hsep, WalkOut.panicked.injEq] at h
          exact h ▸ hr2
      | some children =>
        have hsep := separateFilesAndDirs_eq fs cfg e children hfs
        have hqueue : ∀ q ∈ rest ++ children.filter
            (fun p => !termAny cfg p && !cfg.conditionChecker p),
            termAny cfg q = false := by
          intro q hmem
          rcases List.mem_append.mp hmem with h1 | h1
          · exact hq q (by simp [h1])
          · have := List.of_mem_filter h1
            simp only [Bool.and_eq_true, Bool.not_eq_true'] at this
            exact this.1
        have key := ih
          (res ++ children.filter
            (fun p => !termAny cfg p && cfg.conditionChecker p))
          (rest ++ children.filter
            (fun p => !termAny cfg p && !cfg.conditionChecker p))
          (reads ++ [e]) hqueue hr2
        constructor
        · intro em reads2 h
          simp only [walkLoop, hsep] at h
          exact key.1 em reads2 h
        · intro reads2 h
          simp only [walkLoop, hsep] at h
          exact key.2 reads2 h

/-- C1, part 4 helper: over a whole walk, any path with a true terminate
checker is absent from the reads list. -/
theorem recursivelyIterate_pruned_never_read (fs : FS α) (cfg : WalkCfg α)
    (fuel : Nat) (root p : α) (hp : termAny cfg p = true)
    (em reads : List α)
    (h : recursivelyIterate fs cfg fuel root = .ok em reads) :
    p ∉ reads := by
  intro hmem
  unfold recursivelyIterate at h
  by_cases ht : termAny cfg root = true
  · simp only [ht, if_true, WalkOut.ok.injEq] at h
    rw [← h.2] at hmem
    simp at hmem
  · rw [Bool.not_eq_true] at ht
    simp only [ht, Bool.false_eq_true, if_false] at h
    by_cases hc : cfg.conditionChecker root = true
    · simp only [hc, if_true, WalkOut.ok.injEq] at h
      rw [← h.2] at hmem
      simp at hmem
    · rw [Bool.not_eq_true] at hc
      simp only [hc, Bool.false_eq_true, if_false] at h
      cases hfs : fs root with
      | none =>
        have hsep : separateFilesAndDirs fs cfg root = none := by
          simp [separateFilesAndDirs, hfs]
        rw [hsep] at h
        simp at h
      | some children =>
        rw [separateFilesAndDirs_eq fs cfg root children hfs] at h
        simp only at h
        have hqueue : ∀ q ∈ children.filter
            (fun p => !termAny cfg p && !cfg.conditionChecker p),
            termAny cfg q = false := by
          intro q h1
          have := List.of_mem_filter h1
          simp only [Bool.and_eq_true, Bool.not_eq_true'] at this
          exact this.1
        have hroot : ∀ r ∈ [root], termAny cfg r = false := by
          intro r h1
          simp only [List.mem_singleton] at h1
          exact h1 ▸ ht
        have key := (walkLoop_reads_not_terminated fs cfg fuel
          (children.filter (fun p => !termAny cfg p && cfg.conditionChecker p))
          (children.filter (fun p => !termAny cfg p && !cfg.conditionChecker p))
          [root] hqueue hroot).1 em reads h p hmem
        rw [hp] at key
        exact Bool.true_eq_false.mp key

/-! ### Emitted paths: terminate false, condition true -/

/-- In the queue-draining loop, if every accumulated result already passed
(terminate false, condition true) and every queued entry is an intermediate
directory (terminate false, condition false), then every path in the final
emitted list passed every terminate checker and the condition checker. -/
theorem walkLoop_emitted_legit (fs : FS α) (cfg : WalkCfg α)
    (fuel : Nat) (res queue reads : List α)
    (hres : ∀ p ∈ res, termAny cfg p = false ∧ cfg.conditionChecker p = true)
    (hq : ∀ q ∈ queue,
      termAny cfg q = false ∧ cfg.conditionChecker q = false) :
    ∀ em reads2, walkLoop fs cfg fuel res queue reads = .ok em reads2 →
      ∀ p ∈ em, termAny cfg p = false ∧ cfg.conditionChecker p = true := by
  induction fuel generalizing res queue reads with
  | zero => simp [walkLoop]
  | succ fuel ih =>
    cases queue with
    | nil =>
      intro em reads2 h
      simp only [walkLoop, WalkOut.ok.injEq] at h
      exact h.1 ▸ hres
    | cons e rest =>
      cases hfs : fs e with
      | none =>
        have hsep : separateFilesAndDirs fs cfg e = none := by
          simp [separateFilesAndDirs, hfs]
        intro em reads2 h
        simp [walkLoop, hsep] at h
      | some children =>
        have hsep := separateFilesAndDirs_eq fs cfg e children hfs
        intro em reads2 h
        simp only [walkLoop, hsep] at h
        refine ih _ _ (reads ++ [e]) ?_ ?_ em reads2 h
        · intro p hmem
          rcases List.mem_append.mp hmem with h1 | h1
          · exact hres p h1
          · have := List.of_mem_filter h1
            simp only [Bool.and_eq_true, Bool.not_eq_true'] at this
            exact this
        · intro q hmem
          rcases List.mem_append.mp hmem with h1 | h1
          · exact hq q (by simp [h1])
          · have := List.of_mem_filter h1
            simp only [Bool.and_eq_true, Bool.not_eq_true'] at this
            exact this

/-- Whole-walk version: every emitted path passed every terminate checker
(all false) and the condition checker (true). -/
theorem recursivelyIterate_emitted_legit (fs : FS α) (cfg : WalkCfg α)
    (fuel : Nat) (root : α) (em reads : List α)
    (h : recursivelyIterate fs cfg fuel root = .ok em reads) :
    ∀ p ∈ em, termAny cfg p = false ∧ cfg.conditionChecker p = true := by
  unfold recursivelyIterate at h
  by_cases ht : termAny cfg root = true
  · simp only [ht, if_true, WalkOut.ok.injEq] at h
    rw [← h.1]
    simp
  · rw [Bool.not_eq_true] at ht
    simp only [ht, Bool.false_eq_true, if_false] at h
    by_cases hc : cfg.conditionChecker root = true
    · simp only [hc, if_true, WalkOut.ok.injEq] at h
      intro p hmem
      rw [← h.1] at hmem
      simp only [List.mem_singleton] at hmem
      exact hmem ▸ ⟨ht, hc⟩
    · rw [Bool.not_eq_true] at hc
      simp only [hc, Bool.false_eq_true, if_false] at h
      cases hfs : fs root with
      | none =>
        have hsep : separateFilesAndDirs fs cfg root = none := by
          simp [separateFilesAndDirs, hfs]
        rw [hsep] at h
        simp at h
      | some children =>
        rw [separateFilesAndDirs_eq fs cfg root children hfs] at h
        simp only at h
        refine walkLoop_emitted_legit fs cfg fuel _ _ [root] ?_ ?_ em reads h
        · intro p hmem
          have := List.of_mem_filter hmem
          simp only [Bool.and_eq_true, Bool.not_eq_true'] at this
          exact this
        · intro q hmem
          have := List.of_mem_filter hmem
          simp only [Bool.and_eq_true, Bool.not_eq_true'] at this
          exact this

/-- C1: per-path decision order during a walk step.
(1) If any terminate checker accepts the root, the whole walk returns no
results and reads no directory (the subtree is pruned, even if the root is
unreadable); (2) otherwise, if the condition checker accepts the root, the
root alone is emitted and nothing is read (no descent); (3) for every
readable directory, its children are partitioned in the same order:
terminate checkers first (dropped), then condition checker (emitted),
otherwise queued for descent; (4) a path accepted by some terminate checker
is never read and never emitted anywhere in a completed walk. -/
theorem walk_decision_order (fs : FS α) (cfg : WalkCfg α) (fuel : Nat)
    (root : α) :
    (termAny cfg root = true →
      recursivelyIterate fs cfg fuel root = .ok [] []) ∧
    (termAny cfg root = false → cfg.conditionChecker root = true →
      recursivelyIterate fs cfg fuel root = .ok [root] []) ∧
    (∀ entry children, fs entry = some children →
      separateFilesAndDirs fs cfg entry =
        some (children.filter
                (fun p => !termAny cfg p && cfg.conditionChecker p),
              children.filter
                (fun p => !termAny cfg p && !cfg.conditionChecker p))) ∧
    (∀ p em reads, termAny cfg p = true →
      recursivelyIterate fs cfg fuel root = .ok em reads →
      p ∉ reads ∧ p ∉ em) := by
  refine ⟨?_, ?_, ?_, ?_⟩
  · intro ht
    simp [recursivelyIterate, ht]
  · intro ht hc
    simp [recursivelyIterate, ht, hc]
  · intro entry children h
    exact separateFilesAndDirs_eq fs cfg entry children h
  · intro p em reads hp h
    refine ⟨recursivelyIterate_pruned_never_read fs cfg fuel root p hp
      em reads h, ?_⟩
    intro hmem
    have := (recursivelyIterate_emitted_legit fs cfg fuel root em reads h
      p hmem).1
    rw [hp] at this
    exact Bool.true_eq_false.mp this

/-! ### Concrete fixtures used by witnesses -/

/-- A tiny concrete filesystem on `Nat` paths: 2 is a directory with
children 0, 1 and 3; everything else is an empty directory. -/
def exFS : FS Nat := fun p => if p = 2 then some [0, 1, 3] else some []

/-- A concrete checker configuration: path 0 is pruned by the single
terminate checker, path 1 satisfies the condition checker. -/
def exCfg : WalkCfg Nat :=
  ⟨[fun p => p == 0], fun p => p == 1⟩

/-- Witness for `walk_decision_order` at the concrete fixture: the pruned
root 0 yields nothing, the condition root 1 is emitted alone, directory 2
partitions its children as specified, and the pruned path 0 is neither
read nor emitted when walking from 2. -/
theorem walk_decision_order_witness :
    recursivelyIterate exFS exCfg 5 0 = .ok [] [] ∧
    recursivelyIterate exFS exCfg 5 1 = .ok [1] [] ∧
    separateFilesAndDirs exFS exCfg 2 = some ([1], [3]) ∧
    ((0 : Nat) ∉ ([2, 3] : List Nat) ∧ (0 : Nat) ∉ ([1] : List Nat)) := by
  have h := walk_decision_order exFS exCfg 5 2
  refine ⟨(walk_decision_order exFS exCfg 5 0).1 (by decide),
    (walk_decision_order exFS exCfg 5 1).2.1 (by decide) (by decide),
    ?_, ?_⟩
  · have h3 := h.2.2.1 2 [0, 1, 3] (by decide)
    rw [h3]
    decide
  · exact h.2.2.2 0 [1] [2, 3] (by decide) (by decide)

/-! ### C2: behavior on a directory-read failure -/

/-- A filesystem for the read-failure scenario: root 2 has the two
intermediate children 4 and 5; reading 4 fails (`read_dir` error); 5 holds
the single emittable child 1. -/
def c2FS : FS Nat := fun p =>
  if p = 2 then some [4, 5]
  else if p = 4 then none
  else if p = 5 then some [1]
  else some []

/-- Counterexample to C2 as stated: with terminate = {0}, condition = {1},
walking root 2 hits the unreadable queued entry 4 and the whole walk
aborts with a panic (`.expect("Unwrap folder")`): the sibling subtree 5,
still queued, is never read, and the emittable path 1 it holds is never
returned — the walk does not continue past the failure and yields no
aggregated diagnostic plus partial results. -/
theorem walk_read_failure_counterexample :
    recursivelyIterate c2FS exCfg 10 2 = .panicked [2, 4] := by decide

/-- C2 amended: a `read_dir` failure on the entry at the front of the work
queue aborts the entire walk as a panic — the remaining queued entries are
never processed and no result list is produced; likewise a walk whose root
is an unreadable intermediate directory panics immediately. -/
theorem walk_read_failure_aborts (fs : FS α) (cfg : WalkCfg α) (fuel : Nat)
    (res rest reads : List α) (e root : α)
    (he : fs e = none) (hroot : fs root = none)
    (ht : termAny cfg root = false)
    (hc : cfg.conditionChecker root = false) :
    walkLoop fs cfg (fuel + 1) res (e :: rest) reads =
      .panicked (reads ++ [e]) ∧
    recursivelyIterate fs cfg fuel root = .panicked [root] := by
  constructor
  · have hsep : separateFilesAndDirs fs cfg e = none := by
      simp [separateFilesAndDirs, he]
    simp [walkLoop, hsep]
  · have hsep : separateFilesAndDirs fs cfg root = none := by
      simp [separateFilesAndDirs, hroot]
    simp [recursivelyIterate, ht, hc, hsep]

/-- Witness for `walk_read_failure_aborts` on the concrete fixture. -/
theorem walk_read_failure_aborts_witness :
    walkLoop c2FS exCfg 10 [] [4, 5] [2] = .panicked [2, 4] ∧
    recursivelyIterate c2FS exCfg 9 4 = .panicked [4] := by
  have h := walk_read_failure_aborts c2FS exCfg 9 [] [5] [2] 4 4
    (by decide) (by decide) (by decide) (by decide)
  exact ⟨h.1, h.2⟩

/-! ### C6: chain invariant over the emitted set -/

/-- Ancestor test: `isUnder r p` holds when `r` is an ancestor-or-self of
`p` (componentwise list extension), the relation induced by the walker
handing the children of an entry back as extended paths. -/
def isUnder : List String → List String → Bool
  | [], _ => true
  | _ :: _, [] => false
  | a :: as, b :: bs => a == b && isUnder as bs

theorem isUnder_refl (p : List String) : isUnder p p = true := by
  induction p with
  | nil => rfl
  | cons a as ih => simp [isUnder, ih]

theorem isUnder_antisymm (a b : List String) (h1 : isUnder a b = true)
    (h2 : isUnder b a = true) : a = b := by
  induction a generalizing b with
  | nil => cases b with
    | nil => rfl
    | cons x xs => simp [isUnder] at h2
  | cons x xs ih =>
    cases b with
    | nil => simp [isUnder] at h1
    | cons y ys =>
      simp only [isUnder, Bool.and_eq_true, beq_iff_eq] at h1 h2
      rw [h1.1, ih ys h1.2 h2.2]

theorem isUnder_snoc (r e : List String) (n : String) :
    isUnder r (e ++ [n]) = true ↔ isUnder r e = true ∨ r = e ++ [n] := by
  induction r generalizing e with
  | nil =>
    simp [isUnder]
  | cons a as ih =>
    cases e with
    | nil =>
      simp only [List.nil_append, isUnder, Bool.and_eq_true, beq_iff_eq]
      constructor
      · rintro ⟨rfl, h2⟩
        right
        cases as with
        | nil => rfl
        | cons x xs => simp [isUnder] at h2
      · rintro (h | h)
        · exact absurd h (by simp)
        · injection h with h1 h2
          subst h1
          subst h2
          exact ⟨rfl, isUnder_refl []⟩
    | cons b bs =>
      simp only [List.cons_append, isUnder, Bool.and_eq_true, beq_iff_eq,
        List.cons.injEq, List.append_eq]
      rw [ih bs]
      tauto

/-- Queue-loop invariant for the chain property: if every accumulated
result and every queued entry has a terminate-free chain from `root`
(and the right condition-checker value), so does every finally emitted
path. -/
theorem walkLoop_chain (fs : FS (List String)) (cfg : WalkCfg (List String))
    (root : List String)
    (hext : ∀ e cs, fs e = some cs → ∀ c ∈ cs, ∃ n, c = e ++ [n])
    (fuel : Nat) (res queue reads : List (List String))
    (hres : ∀ p ∈ res, cfg.conditionChecker p = true ∧
      ∀ r, isUnder root r = true → isUnder r p = true →
        termAny cfg r = false)
    (hq : ∀ q ∈ queue, cfg.conditionChecker q = false ∧
      ∀ r, isUnder root r = true → isUnder r q = true →
        termAny cfg r = false) :
    ∀ em reads2, walkLoop fs cfg fuel res queue reads = .ok em reads2 →
      ∀ p ∈ em, cfg.conditionChecker p = true ∧
        ∀ r, isUnder root r = true → isUnder r p = true →
          termAny cfg r = false := by
  induction fuel generalizing res queue reads with
  | zero => simp [walkLoop]
  | succ fuel ih =>
    cases queue with
    | nil =>
      intro em reads2 h
      simp only [walkLoop, WalkOut.ok.injEq] at h
      exact h.1 ▸ hres
    | cons e rest =>
      cases hfs : fs e with
      | none =>
        have hsep : separateFilesAndDirs fs cfg e = none := by
          simp [separateFilesAndDirs, hfs]
        intro em reads2 h
        simp [walkLoop, hsep] at h
      | some children =>
        have hsep := separateFilesAndDirs_eq fs cfg e children hfs
        have hchild : ∀ c ∈ children, termAny cfg c = false →
            ∀ r, isUnder root r = true → isUnder r c = true →
              termAny cfg r = false := by
          intro c hc htc r h1 h2
          obtain ⟨n, rfl⟩ := hext e children hfs c hc
          rcases (isUnder_snoc r e n).mp h2 with h3 | h3
          · exact (hq e (by simp)).2 r h1 h3
          · exact h3 ▸ htc
        intro em reads2 h
        simp only [walkLoop, hsep] at h
        refine ih _ _ (reads ++ [e]) ?_ ?_ em reads2 h
        · intro p hmem
          rcases List.mem_append.mp hmem with h1 | h1
          · exact hres p h1
          · have h2 := List.of_mem_filter h1
            simp only [Bool.and_eq_true, Bool.not_eq_true'] at h2
            exact ⟨h2.2, hchild p (List.mem_of_mem_filter h1) h2.1⟩
        · intro q hmem
          rcases List.mem_append.mp hmem with h1 | h1
          · exact hq q (by simp [h1])
          · have h2 := List.of_mem_filter h1
            simp only [Bool.and_eq_true, Bool.not_eq_true'] at h2
            exact ⟨h2.2, hchild q (List.mem_of_mem_filter h1) h2.1⟩

/-- C6: every path in the result set of a completed walk satisfies the
condition checker, and every terminate checker returned false on it and on
every path between the root of the walk and it; moreover no path accepted by a
terminate checker (a pruned path) is ever emitted. -/
theorem walk_emitted_chain_invariant (fs : FS (List String))
    (cfg : WalkCfg (List String)) (fuel : Nat) (root : List String)
    (em reads : List (List String))
    (hext : ∀ e cs, fs e = some cs → ∀ c ∈ cs, ∃ n, c = e ++ [n])
    (h : recursivelyIterate fs cfg fuel root = .ok em reads) :
    (∀ p ∈ em, cfg.conditionChecker p = true ∧
      ∀ ch ∈ cfg.terminateCheckers, ∀ r,
        isUnder root r = true → isUnder r p = true → ch r = false) ∧
    (∀ q, termAny cfg q = true → q ∉ em) := by
  have hterm : ∀ r, termAny cfg r = false →
      ∀ ch ∈ cfg.terminateCheckers, ch r = false := by
    intro r hr ch hch
    by_contra hne
    rw [Bool.not_eq_false] at hne
    have : termAny cfg r = true := by
      simp only [termAny, List.any_eq_true]
      exact ⟨ch, hch, hne⟩
    rw [hr] at this
    exact Bool.false_eq_true.mp this
  have main : ∀ p ∈ em, cfg.conditionChecker p = true ∧
      ∀ r, isUnder root r = true → isUnder r p = true →
        termAny cfg r = false := by
    unfold recursivelyIterate at h
    by_cases ht : termAny cfg root = true
    · simp only [ht, if_true, WalkOut.ok.injEq] at h
      rw [← h.1]
      simp
    · rw [Bool.not_eq_true] at ht
      simp only [ht, Bool.false_eq_true, if_false] at h
      by_cases hc : cfg.conditionChecker root = true
      · simp only [hc, if_true, WalkOut.ok.injEq] at h
        intro p hmem
        rw [← h.1] at hmem
        simp only [List.mem_singleton] at hmem
        subst hmem
        refine ⟨hc, ?_⟩
        intro r h1 h2
        rw [isUnder_antisymm r p h2 h1]
        exact ht
      · rw [Bool.not_eq_true] at hc
        simp only [hc, Bool.false_eq_true, if_false] at h
        cases hfs : fs root with
        | none =>
          have hsep : separateFilesAndDirs fs cfg root = none := by
            simp [separateFilesAndDirs, hfs]
          rw [hsep] at h
          simp at h
        | some children =>
          rw [separateFilesAndDirs_eq fs cfg root children hfs] at h
          simp only at h
          have hchild : ∀ c ∈ children, termAny cfg c = false →
              ∀ r, isUnder root r = true → isUnder r c = true →
                termAny cfg r = false := by
            intro c hcm htc r h1 h2
            obtain ⟨n, rfl⟩ := hext root children hfs c hcm
            rcases (isUnder_snoc r root n).mp h2 with h3 | h3
            · rw [isUnder_antisymm root r h1 h3] at ht
              exact ht
            · exact h3 ▸ htc
          refine walkLoop_chain fs cfg root hext fuel _ _ [root] ?_ ?_
            em reads h
          · intro p hmem
            have h2 := List.of_mem_filter hmem
            simp only [Bool.and_eq_true, Bool.not_eq_true'] at h2
            exact ⟨h2.2, hchild p (List.mem_of_mem_filter hmem) h2.1⟩
          · intro q hmem
            have h2 := List.of_mem_filter hmem
            simp only [Bool.and_eq_true, Bool.not_eq_true'] at h2
            exact ⟨h2.2, hchild q (List.mem_of_mem_filter hmem) h2.1⟩
  constructor
  · intro p hmem
    refine ⟨(main p hmem).1, ?_⟩
    intro ch hch r h1 h2
    exact hterm r ((main p hmem).2 r h1 h2) ch hch
  · intro q hq hmem
    have := (recursivelyIterate_emitted_legit fs cfg fuel root em reads h
      q hmem).1
    rw [hq] at this
    exact Bool.true_eq_false.mp this

/-- Concrete component-path filesystem: `r` holds the single bundle
`r/a`; everything else is an empty directory. -/
def c6FS : FS (List String) := fun e =>
  if e = ["r"] then some [["r", "a"]] else some []

/-- Checkers over component paths: terminate on `r/x`, emit `r/a`. -/
def c6Cfg : WalkCfg (List String) :=
  ⟨[fun p => p == ["r", "x"]], fun p => p == ["r", "a"]⟩

/-- Witness for `walk_emitted_chain_invariant` on the concrete fixture:
walking `r` emits exactly `r/a`, which satisfies the condition checker,
and the pruned path `r/x` is not in the result. -/
theorem walk_emitted_chain_invariant_witness :
    c6Cfg.conditionChecker ["r", "a"] = true ∧
    (["r", "x"] : List String) ∉ ([["r", "a"]] : List (List String)) := by
  have hext : ∀ e cs, c6FS e = some cs → ∀ c ∈ cs, ∃ n, c = e ++ [n] := by
    intro e cs h c hc
    by_cases he : e = ["r"]
    · subst he
      have heq : c6FS ["r"] = some [["r", "a"]] := by decide
      rw [heq, Option.some.injEq] at h
      subst h
      simp only [List.mem_singleton] at hc
      exact ⟨"a", by simp [hc]⟩
    · have heq : c6FS e = some [] := by simp [c6FS, he]
      rw [heq, Option.some.injEq] at h
      subst h
      simp at hc
  have h := walk_emitted_chain_invariant c6FS c6Cfg 5 ["r"]
    [["r", "a"]] [["r"]] hext (by decide)
  exact ⟨(h.1 ["r", "a"] (by simp)).1, h.2 ["r", "x"] (by decide)⟩

/-! ### Serialization framing: the deserializer (src/utils/serde/deserializer.rs)

A byte is a `Nat` (always below 256 in the Rust code; the bound is never
needed here).  A function that can panic returns an `Option`, with `none`
modelling the panic. -/

/-- Embedding of `read_len` (deserializer.rs:13-20): `bytes.drain(..2)` panics when the
buffer holds fewer than 2 bytes (`none`); otherwise the first two bytes are
removed and combined big-endian (`u16::from_be_bytes`). -/
def read_len : List Nat → Option (Nat × List Nat)
  | b0 :: b1 :: rest => some (b0 * 256 + b1, rest)
  | _ => none

/-- Embedding of `deserialize_from_bytes` (deserializer.rs:8-11): read the 2-byte length
prefix, then `bytes.drain(..size)` — which panics (`none`) when fewer than
`size` bytes remain — and hand the drained payload to `D::deserialize`
(payload-level decoding is a trait of the caller and stays at the byte
level here). -/
def deserialize_from_bytes (bytes : List Nat) :
    Option (List Nat × List Nat) :=
  match read_len bytes with
  | none => none
  | some (size, rest) =>
    if size ≤ rest.length then some (rest.take size, rest.drop size)
    else none

/-- C3, evaluated at the failing inputs: a buffer with fewer than 2 bytes
for the length prefix, and a buffer with fewer payload bytes than its
declared length, both make `deserialize_from_bytes` panic (`none`, the
model of the out-of-bounds `Vec::drain`), not return a framing error; a
complete record decodes normally. -/
theorem deserialize_short_buffer_panics :
    deserialize_from_bytes [] = none ∧
    deserialize_from_bytes [0] = none ∧
    deserialize_from_bytes [0, 5] = none ∧
    deserialize_from_bytes [0, 5, 72, 105] = none ∧
    deserialize_from_bytes [0, 2, 72, 105] = some ([72, 105], []) := by
  decide

/-! ### HiddenChecker (src/query/checkers/hidden_checker.rs)

A path is a list of components (`List String`); names are assumed valid
UTF-8, so `OsStr::to_str` is the identity in the model. -/

/-- Dot test: `name.starts_with(".")`, i.e. the first character is a dot. -/
def startsWithDot (s : String) : Bool :=
  match s.toList with
  | [] => false
  | c :: _ => c == '.'

/-- Embedding of `std::path::Path::file_name` on a component list: trailing `.`
components are not components at all (Rust strips `CurDir`), a trailing
`..` has no file name, otherwise the last component is the file name. -/
def fileNameOfPath (comps : List String) : Option String :=
  match comps.reverse.dropWhile (fun c => c == ".") with
  | [] => none
  | c :: _ => if c == ".." then none else some c

/-- Embedding of the Rust file-name-to-stem step (`split_file_at_dot`): the
portion before the last `.`, except that a name with no `.`, or whose only
`.` is leading, is its own stem.  (The `".."` special case of the Rust
helper cannot arise: `file_name` never returns `".."`.) -/
def fileStemOfName (name : String) : String :=
  match name.toList.reverse.findIdx? (fun c => c == '.') with
  | none => name
  | some j =>
    if name.toList.length - 1 - j = 0 then name
    else String.mk (name.toList.take (name.toList.length - 1 - j))

/-- Embedding of `HiddenChecker::is_legit` (hidden_checker.rs:12-17):
`path.file_stem().and_then(OsStr::to_str)
     .and_then(|name| Some(name.starts_with("."))).unwrap_or(false)`. -/
def hiddenIsLegit (comps : List String) : Bool :=
  match (fileNameOfPath comps).map fileStemOfName with
  | some stem => startsWithDot stem
  | none => false

/-- The stem is either the whole name or a nonempty prefix of it, so its
first character matches the first character of the name: the dot test commutes with
stem extraction. -/
theorem startsWithDot_fileStemOfName (name : String) :
    startsWithDot (fileStemOfName name) = startsWithDot name := by
  unfold fileStemOfName
  cases hf : name.toList.reverse.findIdx? (fun c => c == '.') with
  | none => rfl
  | some j =>
    show startsWithDot (if name.toList.length - 1 - j = 0 then name
      else String.mk (name.toList.take (name.toList.length - 1 - j))) =
      startsWithDot name
    by_cases hi : name.toList.length - 1 - j = 0
    · rw [if_pos hi]
    · rw [if_neg hi]
      obtain ⟨i, hi2⟩ : ∃ i, name.toList.length - 1 - j = i + 1 :=
        ⟨name.toList.length - 1 - j - 1, by omega⟩
      rw [hi2]
      cases hn : name.toList with
      | nil =>
        exfalso
        rw [hn] at hi2
        simp at hi2
      | cons c cs =>
        have : startsWithDot (String.mk (c :: cs)) = (c == '.') := rfl
        unfold startsWithDot
        rw [hn]
        simp only [List.take_cons]
        rfl

/-- C7: for a path whose final component is an ordinary name (not the
special `.` / `..` components, for which the Rust `file_stem` is `None` and
the checker defaults to `false`), `HiddenChecker::is_legit` returns true
iff the stem of the final component — extension excluded — starts with a
dot.  The checker looks only at the path text, so files and directories
are treated alike. -/
theorem hidden_is_legit_iff (comps : List String) (h1 : comps ≠ [])
    (h2 : comps.getLast h1 ≠ ".") (h3 : comps.getLast h1 ≠ "..") :
    hiddenIsLegit comps = true ↔
      startsWithDot (fileStemOfName (comps.getLast h1)) = true := by
  obtain ⟨init, lastv, rfl⟩ : ∃ L b, comps = L ++ [b] := by
    rcases List.eq_nil_or_concat comps with h | h
    · exact absurd h h1
    · obtain ⟨L, b, hL⟩ := h
      exact ⟨L, b, by rw [hL, List.concat_eq_append]⟩
  have hlast : (init ++ [lastv]).getLast h1 = lastv :=
    List.getLast_append_singleton init
  rw [hlast] at h2 h3 ⊢
  have hname : fileNameOfPath (init ++ [lastv]) = some lastv := by
    unfold fileNameOfPath
    rw [List.reverse_append]
    simp only [List.reverse_cons, List.reverse_nil, List.nil_append,
      List.cons_append, List.dropWhile_cons]
    have hd : (lastv == ".") = false := by
      rw [beq_eq_false_iff_ne]
      exact h2
    rw [hd]
    simp only [Bool.false_eq_true, if_false]
    have hdd : (lastv == "..") = false := by
      rw [beq_eq_false_iff_ne]
      exact h3
    rw [hdd]
    simp
  unfold hiddenIsLegit
  rw [hname]
  simp

/-- Witness for `hidden_is_legit_iff` at `home/.b.txt`: the final
stem of the final component is `.b`, which starts with a dot, and the checker
accepts. -/
theorem hidden_is_legit_iff_witness :
    hiddenIsLegit ["home", ".b.txt"] = true := by
  refine (hidden_is_legit_iff ["home", ".b.txt"] (by decide) ?_ ?_).mpr ?_
  · decide
  · decide
  · decide

/-! ### C9: checker chain built by `QueryProcessor::new`
(src/query/query.rs:27-44) -/

/-- The four checker variants the processor can install.  Their `is_legit`
behavior stays abstract here (an interpretation function supplies it);
only which ones are installed is at stake. -/
inductive CheckerKind where
  | hidden
  | ignore (paths : List String)
  | symlink
  | bundle
  deriving DecidableEq

/-- The `condition_checker` field set by `QueryProcessor::new`. -/
def newConditionChecker : CheckerKind := .bundle

/-- The `terminate_checkers` field set by `QueryProcessor::new`: only the
Hidden checker when the configured ignore-path list is empty; Hidden,
Ignore and Symlink otherwise. -/
def newTerminateCheckers (ignorePaths : List String) : List CheckerKind :=
  if ignorePaths.isEmpty then [.hidden]
  else [.hidden, .ignore ignorePaths, .symlink]

/-- C9: with an empty ignore list the chain is exactly `[Hidden]` — the
Symlink (and Ignore) checkers are absent, and the pruning decision
of the walker coincides with the Hidden checker alone, whatever the individual
checkers do on a path (so symbolic links are not pruned); with a
non-empty ignore list the three-checker chain is installed. -/
theorem terminate_checkers_construction {α : Type} :
    newTerminateCheckers [] = [CheckerKind.hidden] ∧
    CheckerKind.symlink ∉ newTerminateCheckers [] ∧
    (∀ (interp : CheckerKind → α → Bool) (cond : α → Bool) (p : α),
      termAny ⟨(newTerminateCheckers []).map interp, cond⟩ p =
        interp .hidden p) ∧
    (∀ ps, ps ≠ [] →
      newTerminateCheckers ps = [.hidden, .ignore ps, .symlink]) := by
  refine ⟨rfl, by decide, ?_, ?_⟩
  · intro interp cond p
    simp [newTerminateCheckers, termAny]
  · intro ps hps
    simp [newTerminateCheckers, hps]

/-- A sample interpretation where every path is a symbolic link and
nothing else: under the empty-ignore-list chain the walker still prunes
nothing. -/
def exInterp : CheckerKind → Nat → Bool := fun k _ => k == CheckerKind.symlink

/-- Witness for `terminate_checkers_construction`: instantiated at
`exInterp`, the pruning verdict on path 7 equals the Hidden verdict
(false), although 7 "is a symlink"; and a one-entry ignore list yields
the three-checker chain. -/
theorem terminate_checkers_construction_witness :
    termAny ⟨(newTerminateCheckers []).map exInterp, fun _ => false⟩ 7 =
      exInterp CheckerKind.hidden 7 ∧
    newTerminateCheckers ["tmp"] =
      [.hidden, .ignore ["tmp"], .symlink] := by
  have h := terminate_checkers_construction (α := Nat)
  exact ⟨h.2.2.1 exInterp (fun _ => false) 7,
    h.2.2.2 ["tmp"] (by decide)⟩

/-! ### The query pipeline (src/query/query.rs:46-99)

`Service::new` wraps a path and serialization uses only the wrapped path,
so a Service is identified with its path.  `path.to_str()` is modelled by
an abstract `toStr : α → Option (List Nat)` giving the UTF-8 bytes of the
path when they exist; the matcher (`matcher::match_query`, an external
collaborator per the spec) is an abstract boolean predicate on those
bytes. -/

/-- Modelled from the spec: `serializer::serialize_to_bytes`
(src/utils/serde/serializer.rs is not under src/).  §6 wire format: a
2-byte big-endian length prefix followed by the payload; a payload longer
than 65535 bytes is rejected at encode time, so through `flat_map` it
contributes no bytes. -/
def serialize_to_bytes (payload : List Nat) : List Nat :=
  if payload.length ≤ 65535 then
    payload.length / 256 :: payload.length % 256 :: payload
  else []

/-- Modelled from the spec: `CacheManager::bunch_read` (§4.3 `read_all`)
returns the current cache contents, empty on cold start. -/
def bunch_read {α : Type} (cache : List α) : List α := cache

/-- Modelled from the spec: `CacheManager::bunch_save` (§4.3 `write_all`)
replaces the whole cache snapshot with the given services and returns the
saved set for reuse; result is (returned set, new cache state). -/
def bunch_save {α : Type} (services : List α) : List α × List α :=
  (services, services)

/-- The two `filter` steps both query branches share: keep paths whose OS
string is valid UTF-8 (`to_str().is_some()`), then keep those the matcher
accepts (`match_query(req, ...unwrap())`, modelled by `getD` after the
`isSome` filter). -/
def filterSurvivors {α : Type} (toStr : α → Option (List Nat))
    (matchQ : List Nat → List Nat → Bool) (req : List Nat)
    (l : List α) : List α :=
  (l.filter (fun s => (toStr s).isSome)).filter
    (fun s => matchQ req ((toStr s).getD []))

/-- Embedding of `flat_map(serializer::serialize_to_bytes)` over the surviving
services. -/
def serializeAll {α : Type} (toStr : α → Option (List Nat))
    (l : List α) : List Nat :=
  l.flatMap (fun s => serialize_to_bytes ((toStr s).getD []))

/-- The `for path in self.config.get_internal_cached()` loop of
`query_cached_services`: walk every cached root in order and concatenate
the emitted paths; a panic in any walk (`none`) aborts the query. -/
def walkAll {α : Type} (fs : FS α) (cfg : WalkCfg α) (fuel : Nat) :
    List α → Option (List α)
  | [] => some []
  | r :: rs =>
    match recursivelyIterate fs cfg fuel r with
    | .ok em _ => (walkAll fs cfg fuel rs).map (fun rest => em ++ rest)
    | _ => none

/-- Embedding of `QueryProcessor::query_cached_services` (query.rs:63-83): read the
cache; a non-empty cache is the candidate set as-is (no walking, no
write); an empty cache triggers a walk of every cached root, whose
aggregate is persisted via `bunch_save` before the filter/serialize steps
run on the saved set.  Returns the branch bytes and the cache state after
the call. -/
def query_cached_services {α : Type} (fs : FS α) (cfg : WalkCfg α)
    (fuel : Nat) (cachedRoots : List α) (cache : List α)
    (toStr : α → Option (List Nat)) (matchQ : List Nat → List Nat → Bool)
    (req : List Nat) : Option (List Nat × List α) :=
  if !(bunch_read cache).isEmpty then
    some (serializeAll toStr (filterSurvivors toStr matchQ req
      (bunch_read cache)), cache)
  else
    match walkAll fs cfg fuel cachedRoots with
    | none => none
    | some res =>
      some (serializeAll toStr (filterSurvivors toStr matchQ req
        (bunch_save res).1), (bunch_save res).2)

/-- Embedding of `QueryProcessor::query_updated_services` (query.rs:85-97): for every
updated root, walk it fresh, filter, serialize, and append the bytes. -/
def query_updated_services {α : Type} (fs : FS α) (cfg : WalkCfg α)
    (fuel : Nat) (updatedRoots : List α)
    (toStr : α → Option (List Nat)) (matchQ : List Nat → List Nat → Bool)
    (req : List Nat) : Option (List Nat) :=
  match updatedRoots with
  | [] => some []
  | r :: rs =>
    match recursivelyIterate fs cfg fuel r with
    | .ok em _ =>
      (query_updated_services fs cfg fuel rs toStr matchQ req).map
        (fun rest =>
          serializeAll toStr (filterSurvivors toStr matchQ req em) ++ rest)
    | _ => none

/-- Embedding of `QueryProcessor::async_query` (query.rs:52-60): run the two branches
(`join!` over effect-disjoint futures, embedded as pure composition) and
chain the cached bytes before the updated bytes. -/
def async_query {α : Type} (fs : FS α) (cfg : WalkCfg α) (fuel : Nat)
    (cachedRoots updatedRoots : List α) (cache : List α)
    (toStr : α → Option (List Nat)) (matchQ : List Nat → List Nat → Bool)
    (req : List Nat) : Option (List Nat × List α) :=
  match query_cached_services fs cfg fuel cachedRoots cache toStr matchQ req,
    query_updated_services fs cfg fuel updatedRoots toStr matchQ req with
  | some (cb, nc), some ub => some (cb ++ ub, nc)
  | _, _ => none

/-! ### C4: the cached branch -/

/-- C4: (a) on a non-empty cache, the cached branch takes the cache as its
candidate set, leaves the cache untouched, and its result does not involve
the filesystem, the walker fuel, or the cached roots at all (the roots are
not re-walked); (b) on an empty cache, every configured cached root is
walked, the unfiltered aggregate is persisted as the new cache state before
filtering, and that just-built set is the candidate set for this call. -/
theorem query_cached_branch {α : Type} (toStr : α → Option (List Nat))
    (matchQ : List Nat → List Nat → Bool) (req : List Nat) :
    (∀ (fs : FS α) (cfg : WalkCfg α) (fuel : Nat) (roots cache : List α),
      cache ≠ [] →
      query_cached_services fs cfg fuel roots cache toStr matchQ req =
        some (serializeAll toStr (filterSurvivors toStr matchQ req cache),
          cache)) ∧
    (∀ (fs : FS α) (cfg : WalkCfg α) (fuel : Nat) (roots res : List α),
      walkAll fs cfg fuel roots = some res →
      query_cached_services fs cfg fuel roots [] toStr matchQ req =
        some (serializeAll toStr (filterSurvivors toStr matchQ req res),
          res)) := by
  constructor
  · intro fs cfg fuel roots cache hne
    have : cache.isEmpty = false := by
      cases cache with
      | nil => exact absurd rfl hne
      | cons a l => rfl
    simp [query_cached_services, bunch_read, this]
  · intro fs cfg fuel roots res hwalk
    simp [query_cached_services, bunch_read, bunch_save, hwalk]

/-- Witness for `query_cached_branch` on `exFS`/`exCfg`: a warm cache
`[1, 3]` is used as-is; a cold cache triggers the walk of root 2
(emitting 1), which is saved as the new cache. -/
theorem query_cached_branch_witness :
    query_cached_services exFS exCfg 5 [2] [1, 3]
        (fun p => some [p]) (fun _ _ => true) [] =
      some (serializeAll (fun p => some [p])
        (filterSurvivors (fun p => some [p]) (fun _ _ => true) [] [1, 3]),
        [1, 3]) ∧
    query_cached_services exFS exCfg 5 [2] []
        (fun p => some [p]) (fun _ _ => true) [] =
      some (serializeAll (fun p => some [p])
        (filterSurvivors (fun p => some [p]) (fun _ _ => true) [] [1]),
        [1]) := by
  have h := query_cached_branch (α := Nat) (fun p => some [p])
    (fun _ _ => true) []
  exact ⟨h.1 exFS exCfg 5 [2] [1, 3] (by decide),
    h.2 exFS exCfg 5 [2] [1] (by decide)⟩

/-! ### C5: fixed concatenation order of the two branches -/

/-- C5: whenever the two branches complete, the byte sequence the query
returns is
exactly the cached-branch bytes followed by the updated-branch bytes.  The
embedding of `join!` is pure composition — the branches share no mutable
state — so the result is a function of the request, checkers, filesystem
and cache alone, with the order fixed by position. -/
theorem async_query_concat {α : Type} (fs : FS α) (cfg : WalkCfg α)
    (fuel : Nat) (cachedRoots updatedRoots cache : List α)
    (toStr : α → Option (List Nat)) (matchQ : List Nat → List Nat → Bool)
    (req : List Nat) (cb ub : List Nat) (nc : List α)
    (h1 : query_cached_services fs cfg fuel cachedRoots cache toStr matchQ
      req = some (cb, nc))
    (h2 : query_updated_services fs cfg fuel updatedRoots toStr matchQ
      req = some ub) :
    async_query fs cfg fuel cachedRoots updatedRoots cache toStr matchQ
      req = some (cb ++ ub, nc) := by
  simp [async_query, h1, h2]

/-- Witness for `async_query_concat` on `exFS`/`exCfg` with warm cache
`[1]` and updated root 2: cached bytes then updated bytes. -/
theorem async_query_concat_witness :
    async_query exFS exCfg 5 [2] [2] [1]
        (fun p => some [p]) (fun _ _ => true) [] =
      some ([0, 1, 1] ++ [0, 1, 1], [1]) := by
  exact async_query_concat exFS exCfg 5 [2] [2] [1]
    (fun p => some [p]) (fun _ _ => true) [] [0, 1, 1] [0, 1, 1] [1]
    (by decide) (by decide)

/-! ### C10: paths without a UTF-8 rendering are silently dropped -/

/-- C10: a candidate path whose OS string is not valid UTF-8
(`toStr p = none`) is removed by the `to_str().is_some()` filter both
branches apply before the matcher runs: the surviving set is as if the
path were absent, the path is never among the survivors, and the cached
branch still completes without error with no record for it. -/
theorem invalid_utf8_dropped {α : Type} (toStr : α → Option (List Nat))
    (matchQ : List Nat → List Nat → Bool) (req : List Nat) (p : α)
    (hp : toStr p = none) :
    (∀ l1 l2 : List α,
      filterSurvivors toStr matchQ req (l1 ++ p :: l2) =
        filterSurvivors toStr matchQ req (l1 ++ l2)) ∧
    (∀ l : List α, p ∉ filterSurvivors toStr matchQ req l) ∧
    (∀ (fs : FS α) (cfg : WalkCfg α) (fuel : Nat) (roots l1 l2 : List α),
      query_cached_services fs cfg fuel roots (l1 ++ p :: l2) toStr matchQ
        req =
        some (serializeAll toStr
          (filterSurvivors toStr matchQ req (l1 ++ l2)), l1 ++ p :: l2)) := by
  have hfil : ∀ l1 l2 : List α,
      filterSurvivors toStr matchQ req (l1 ++ p :: l2) =
        filterSurvivors toStr matchQ req (l1 ++ l2) := by
    intro l1 l2
    unfold filterSurvivors
    rw [List.filter_append, List.filter_append, List.filter_cons]
    simp [hp]
  refine ⟨hfil, ?_, ?_⟩
  · intro l hmem
    unfold filterSurvivors at hmem
    have := List.of_mem_filter (List.mem_of_mem_filter hmem)
    rw [hp] at this
    simp at this
  · intro fs cfg fuel roots l1 l2
    have hne : l1 ++ p :: l2 ≠ [] := by simp
    have : (l1 ++ p :: l2).isEmpty = false := by
      cases h : l1 ++ p :: l2 with
      | nil => exact absurd h hne
      | cons a l => rfl
    simp only [query_cached_services, bunch_read, this, Bool.not_false,
      if_true]
    rw [hfil]

/-- Witness for `invalid_utf8_dropped`: with `toStr` undefined exactly on
path 9, a cache `[1, 9, 3]` filters and serializes as `[1, 3]` would, 9
survives nowhere, and the branch returns without error. -/
theorem invalid_utf8_dropped_witness :
    filterSurvivors (fun p => if p = 9 then none else some [p])
        (fun _ _ => true) [] ([1] ++ 9 :: [3]) =
      filterSurvivors (fun p => if p = 9 then none else some [p])
        (fun _ _ => true) [] ([1] ++ [3]) ∧
    (9 : Nat) ∉ filterSurvivors (fun p => if p = 9 then none else some [p])
        (fun _ _ => true) [] [1, 9, 3] ∧
    query_cached_services exFS exCfg 5 [2] ([1] ++ 9 :: [3])
        (fun p => if p = 9 then none else some [p]) (fun _ _ => true) [] =
      some (serializeAll (fun p => if p = 9 then none else some [p])
        (filterSurvivors (fun p => if p = 9 then none else some [p])
          (fun _ _ => true) [] ([1] ++ [3])), [1] ++ 9 :: [3]) := by
  have h := invalid_utf8_dropped (α := Nat)
    (fun p => if p = 9 then none else some [p]) (fun _ _ => true) [] 9
    (by decide)
  exact ⟨h.1 [1] [3], h.2.1 [1, 9, 3], h.2.2 exFS exCfg 5 [2] [1] [3]⟩

/-! ### C8: no cross-branch deduplication

The response is decoded with the deserializer of this repository, iterated
(§6: "a consumer must decode records sequentially until the buffer is
exhausted"). -/

/-- One framing step strictly shrinks the buffer. -/
theorem deserialize_from_bytes_length (bytes payload rest : List Nat)
    (h : deserialize_from_bytes bytes = some (payload, rest)) :
    rest.length < bytes.length := by
  unfold deserialize_from_bytes at h
  cases bytes with
  | nil => simp [read_len] at h
  | cons b0 tl =>
    cases tl with
    | nil => simp [read_len] at h
    | cons b1 r =>
      simp only [read_len] at h
      by_cases hs : b0 * 256 + b1 ≤ r.length
      · rw [if_pos hs, Option.some.injEq] at h
        have hr : rest = r.drop (b0 * 256 + b1) := (congrArg Prod.snd h).symm
        rw [hr, List.length_drop]
        simp only [List.length_cons]
        omega
      · rw [if_neg hs] at h
        exact absurd h (by simp)

/-- Decode loop of a stream consumer over a record stream, fuel-indexed (the
fuel only needs to dominate the buffer length; one record consumes at
least two bytes). -/
def decodeAllFuel : Nat → List Nat → Option (List (List Nat))
  | _, [] => some []
  | 0, _ :: _ => none
  | fuel + 1, b :: bs =>
    match deserialize_from_bytes (b :: bs) with
    | none => none
    | some (payload, rest) =>
      (decodeAllFuel fuel rest).map (fun l => payload :: l)

/-- Decode a whole buffer into its record payloads: sequential
`deserialize_from_bytes` until the buffer is exhausted (`none` when some
step panics or a trailing fragment remains unframed). -/
def decodeAll (bytes : List Nat) : Option (List (List Nat)) :=
  decodeAllFuel bytes.length bytes

theorem decodeAllFuel_eq (f : Nat) :
    ∀ bytes : List Nat, bytes.length ≤ f →
      decodeAllFuel f bytes = decodeAll bytes := by
  induction f using Nat.strong_induction_on with
  | _ f ih =>
    intro bytes h1
    cases bytes with
    | nil => cases f <;> rfl
    | cons b bs =>
      obtain ⟨g, rfl⟩ : ∃ g, f = g + 1 := by
        cases f with
        | zero => simp at h1
        | succ g => exact ⟨g, rfl⟩
      simp only [List.length_cons] at h1
      unfold decodeAll
      simp only [List.length_cons, decodeAllFuel]
      cases hd : deserialize_from_bytes (b :: bs) with
      | none => rfl
      | some pr =>
        obtain ⟨payload, rest⟩ := pr
        have hlen := deserialize_from_bytes_length (b :: bs) payload rest hd
        simp only [List.length_cons] at hlen
        show Option.map (fun l => payload :: l) (decodeAllFuel g rest) =
          Option.map (fun l => payload :: l) (decodeAllFuel bs.length rest)
        have e1 : decodeAllFuel g rest = decodeAll rest :=
          ih g (by omega) rest (by omega)
        have e2 : decodeAllFuel bs.length rest = decodeAll rest :=
          ih bs.length (by omega) rest (by omega)
        rw [e1, e2]

/-- Decoding a well-formed record at the head of a stream yields its
payload and continues with the tail. -/
theorem decodeAll_record (payload rest : List Nat)
    (h : payload.length ≤ 65535) :
    decodeAll (serialize_to_bytes payload ++ rest) =
      (decodeAll rest).map (fun l => payload :: l) := by
  have hser : serialize_to_bytes payload =
      payload.length / 256 :: payload.length % 256 :: payload := by
    simp [serialize_to_bytes, h]
  have hdes : deserialize_from_bytes
      (payload.length / 256 :: payload.length % 256 :: (payload ++ rest)) =
      some (payload, rest) := by
    unfold deserialize_from_bytes read_len
    simp only
    have hsz : payload.length / 256 * 256 + payload.length % 256 =
        payload.length := by
      have := Nat.div_add_mod payload.length 256
      omega
    rw [hsz]
    have hle : payload.length ≤ (payload ++ rest).length := by simp
    rw [if_pos hle, List.take_left, List.drop_left]
  rw [hser]
  show decodeAll
    (payload.length / 256 :: payload.length % 256 :: payload ++ rest) = _
  have hshape :
      payload.length / 256 :: payload.length % 256 :: payload ++ rest =
      payload.length / 256 :: payload.length % 256 :: (payload ++ rest) := by
    simp
  rw [hshape]
  unfold decodeAll
  simp only [List.length_cons, decodeAllFuel, hdes]
  have hlen := deserialize_from_bytes_length _ payload rest hdes
  rw [decodeAllFuel_eq ((payload ++ rest).length + 1) rest
    (by simp only [List.length_cons] at hlen; omega)]
  rfl

/-- Payload list that the surviving services of a branch serialize to. -/
def payloadsOf {α : Type} (toStr : α → Option (List Nat)) (l : List α) :
    List (List Nat) :=
  l.map (fun s => (toStr s).getD [])

/-- Decoding the serialization of a survivor list prepends exactly its
payloads (when each payload fits one frame). -/
theorem decodeAll_serializeAll {α : Type} (toStr : α → Option (List Nat))
    (l : List α) (rest : List Nat)
    (hl : ∀ s ∈ l, ((toStr s).getD []).length ≤ 65535) :
    decodeAll (serializeAll toStr l ++ rest) =
      (decodeAll rest).map (fun t => payloadsOf toStr l ++ t) := by
  induction l with
  | nil =>
    simp only [serializeAll, List.flatMap_nil, List.nil_append, payloadsOf,
      List.map_nil]
    cases decodeAll rest <;> simp
  | cons s ss ih =>
    have hs := hl s (by simp)
    have hss : ∀ x ∈ ss, ((toStr x).getD []).length ≤ 65535 :=
      fun x hx => hl x (by simp [hx])
    simp only [serializeAll, List.flatMap_cons, payloadsOf, List.map_cons]
    rw [List.append_assoc, decodeAll_record _ _ hs]
    have := ih hss
    simp only [serializeAll, payloadsOf] at this
    rw [this]
    cases decodeAll rest <;> simp

/-- Helper shared by the cached-branch theorems: the warm-cache equation. -/
theorem query_cached_services_warm {α : Type} (fs : FS α) (cfg : WalkCfg α)
    (fuel : Nat) (roots cache : List α) (toStr : α → Option (List Nat))
    (matchQ : List Nat → List Nat → Bool) (req : List Nat)
    (hne : cache ≠ []) :
    query_cached_services fs cfg fuel roots cache toStr matchQ req =
      some (serializeAll toStr (filterSurvivors toStr matchQ req cache),
        cache) := by
  have : cache.isEmpty = false := by
    cases cache with
    | nil => exact absurd rfl hne
    | cons a l => rfl
  simp [query_cached_services, bunch_read, this]

/-- C8: when the same path `X` is in the warm cache (the candidate set of
the cached branch) and among the walk results of an updated root, has a UTF-8
rendering that fits one frame, and matches the query, the decoded response
holds at least two records with the payload of `X`: the branches do not
deduplicate against each other. -/
theorem no_cross_branch_dedup {α : Type} (fs : FS α) (cfg : WalkCfg α)
    (fuel : Nat) (cachedRoots : List α) (r X : α)
    (cache emU readsU : List α) (toStr : α → Option (List Nat))
    (matchQ : List Nat → List Nat → Bool) (req sx : List Nat)
    (hX : toStr X = some sx) (_hsz : sx.length ≤ 65535)
    (hm : matchQ req sx = true)
    (hc : cache ≠ []) (hXc : X ∈ cache)
    (hwalk : recursivelyIterate fs cfg fuel r = .ok emU readsU)
    (hXu : X ∈ emU)
    (hsmall1 : ∀ s ∈ cache, ((toStr s).getD []).length ≤ 65535)
    (hsmall2 : ∀ s ∈ emU, ((toStr s).getD []).length ≤ 65535) :
    ∃ bytes recs,
      async_query fs cfg fuel cachedRoots [r] cache toStr matchQ req =
        some (bytes, cache) ∧
      decodeAll bytes = some recs ∧ 2 ≤ recs.count sx := by
  have h1 := query_cached_services_warm fs cfg fuel cachedRoots cache
    toStr matchQ req hc
  have h2 : query_updated_services fs cfg fuel [r] toStr matchQ req =
      some (serializeAll toStr (filterSurvivors toStr matchQ req emU)
        ++ []) := by
    simp [query_updated_services, hwalk]
  set survC := filterSurvivors toStr matchQ req cache with hsurvC
  set survU := filterSurvivors toStr matchQ req emU with hsurvU
  have hsmC : ∀ s ∈ survC, ((toStr s).getD []).length ≤ 65535 :=
    fun s hs => hsmall1 s
      (List.mem_of_mem_filter (List.mem_of_mem_filter hs))
  have hsmU : ∀ s ∈ survU, ((toStr s).getD []).length ≤ 65535 :=
    fun s hs => hsmall2 s
      (List.mem_of_mem_filter (List.mem_of_mem_filter hs))
  refine ⟨serializeAll toStr survC ++ (serializeAll toStr survU ++ []),
    payloadsOf toStr survC ++ (payloadsOf toStr survU ++ []), ?_, ?_, ?_⟩
  · simp only [async_query, h1, h2]
  · rw [decodeAll_serializeAll toStr survC _ hsmC,
      decodeAll_serializeAll toStr survU [] hsmU]
    rfl
  · have hmemC : X ∈ survC := by
      rw [hsurvC]
      unfold filterSurvivors
      refine List.mem_filter.mpr ⟨List.mem_filter.mpr ⟨hXc, ?_⟩, ?_⟩
      · simp [hX]
      · simp [hX, hm]
    have hmemU : X ∈ survU := by
      rw [hsurvU]
      unfold filterSurvivors
      refine List.mem_filter.mpr ⟨List.mem_filter.mpr ⟨hXu, ?_⟩, ?_⟩
      · simp [hX]
      · simp [hX, hm]
    have hpC : sx ∈ payloadsOf toStr survC :=
      List.mem_map.mpr ⟨X, hmemC, by simp [hX]⟩
    have hpU : sx ∈ payloadsOf toStr survU :=
      List.mem_map.mpr ⟨X, hmemU, by simp [hX]⟩
    have c1 : 0 < (payloadsOf toStr survC).count sx :=
      List.count_pos_iff.mpr hpC
    have c2 : 0 < (payloadsOf toStr survU).count sx :=
      List.count_pos_iff.mpr hpU
    rw [List.count_append, List.count_append]
    simp only [List.count_nil]
    omega

/-- Concrete fixture for `no_cross_branch_dedup`: updated root 1 holds
the bundle 0, which is also the only entry of the warm cache. -/
def c8FS : FS Nat := fun p => if p = 1 then some [0] else some []

/-- Checkers for the fixture: nothing terminates, path 0 is the bundle. -/
def c8Cfg : WalkCfg Nat := ⟨[fun _ => false], fun p => p == 0⟩

/-- Witness for `no_cross_branch_dedup` at the concrete fixture: path 0
is both cached and walked, and the decoded response counts its payload
twice. -/
theorem no_cross_branch_dedup_witness :
    ∃ bytes recs,
      async_query c8FS c8Cfg 3 [] [1] [0] (fun p => some [p])
          (fun _ _ => true) [] = some (bytes, [0]) ∧
      decodeAll bytes = some recs ∧ 2 ≤ recs.count [0] := by
  refine no_cross_branch_dedup c8FS c8Cfg 3 [] 1 0 [0] [0] [1]
    (fun p => some [p]) (fun _ _ => true) [] [0] (by decide) (by decide)
    (by decide) (by decide) (by decide) (by decide) (by decide) ?_ ?_
  · intro s hs
    simp only [List.mem_singleton] at hs
    subst hs
    decide
  · intro s hs
    simp only [List.mem_singleton] at hs
    subst hs
    decide

end LaunchService
